import Mathlib

/-!
Shallow embedding of the Comcopilot audio-analysis pipeline
(`analysis_utils.py` and `comcopilotapp.py`) and proofs checking the
natural-language specification against it.

Conventions of the embedding:
* Python floats are modelled as rationals (`ℚ`); the only genuinely real-valued
  step, the square root inside `np.std`, is applied at the statement level via
  `Real.sqrt` (every `def` stays computable).
* A Python value that may be `None` is an `Option`.
* External collaborators (the parselmouth pitch tracker, the scripted
  acoustic-measurement tool) enter as explicit inputs: a contour or a
  token list per segment, exactly as the surrounding code consumes them.
* File-system effects of the segment scorer are made explicit by threading the
  list of live (created and not yet deleted) temporary files.
-/

/-- Embeds `calculate_score` (analysis_utils.py, lines 180-184):
`0` when `available_criteria_count == 0`, otherwise
`(positive_criteria_count / available_criteria_count) * 100`. -/
def calculate_score (positive_criteria_count available_criteria_count : ℚ) : ℚ :=
  if available_criteria_count = 0 then 0
  else (positive_criteria_count / available_criteria_count) * 100

/-- Embeds the positive-criterion accumulation of `perform_analysis`
(comcopilotapp.py, lines 88-92).  The Python expression evaluates
`pronunciation_score * 1` and `articulation_rate >= 3`; when either value is
`None` this raises `TypeError`, modelled here as `none`. -/
def positive_criteria_count (pitch_result volume_result silence_result : String)
    (pronunciation_score articulation_rate : Option ℚ) : Option ℚ :=
  match pronunciation_score, articulation_rate with
  | some p, some a =>
      some ((if pitch_result = "Balanced" then 1 else 0) +
            (if volume_result = "Volume is ideal" then 1 else 0) +
            (if silence_result = "normal" then 1 else 0) +
            p * 1 +
            (if 3 ≤ a then 1 else 0))
  | _, _ => none

/-- The per-criterion fields of the dictionary built by `perform_analysis`. -/
structure AnalysisResults where
  pitch : String
  volume : String
  silence : String
  pronunciation : ℚ
  articulation : ℚ
  overall_score : ℚ
deriving DecidableEq, Repr

/-- The initial `analysis_results` dictionary of `perform_analysis`
(comcopilotapp.py, lines 63-70), kept when the `try` block raises. -/
def default_results : AnalysisResults :=
  { pitch := "Error: Analysis failed"
    volume := "Error: Analysis failed"
    silence := "Error: Analysis failed"
    pronunciation := 0
    articulation := 0
    overall_score := 0 }

/-- Embeds the tail of `perform_analysis` (comcopilotapp.py, lines 85-107):
the five sub-results are combined into `positive_criteria_count`; a `TypeError`
there (a `None` pronunciation or articulation average) is caught by the
enclosing `try`/`except`, leaving every field at its default. -/
def perform_analysis (pitch_result volume_result silence_result : String)
    (pronunciation_score articulation_rate : Option ℚ) : AnalysisResults :=
  match positive_criteria_count pitch_result volume_result silence_result
      pronunciation_score articulation_rate with
  | none => default_results
  | some pc =>
      { pitch := pitch_result
        volume := volume_result
        silence := silence_result
        pronunciation := pronunciation_score.getD 0
        articulation := articulation_rate.getD 0
        overall_score := calculate_score pc 5 }

/-- Python `max(iterable, default)`: the default on an empty list, otherwise
the maximum of the elements. -/
def py_max_default (l : List ℚ) (default : ℚ) : ℚ :=
  match l with
  | [] => default
  | x :: xs => xs.foldl max x

/-- Embeds `classify_silences` (analysis_utils.py, lines 101-116).  Note that
the source computes `initial_delay` as
`silences[0][0] if silences and silences[0][0] == 0 else 0`: the value taken in
the first branch is the start time itself, which that branch has just required
to equal `0`. -/
def classify_silences (silences : List (ℚ × ℚ))
    (total_duration_threshold initial_delay_threshold long_silence_threshold : ℚ) :
    String :=
  if silences = [] then "normal"
  else
    let durations := silences.map (fun p => p.2 - p.1)
    let total_silence_duration := durations.sum
    let longest_silence := py_max_default durations 0
    let initial_delay :=
      if silences ≠ [] ∧ (silences.headD (0, 0)).1 = 0 then (silences.headD (0, 0)).1 else 0
    if long_silence_threshold ≤ longest_silence then "silence too long"
    else if total_duration_threshold < total_silence_duration then "too much silence"
    else if initial_delay_threshold ≤ initial_delay then "delay"
    else "normal"

/-- One iteration of the scan loop of `analyze_silences`
(analysis_utils.py, lines 79-88).  The state is the list of emitted silence
intervals together with the start time of the currently open interval, if any.
A frame `(time, value)` below the threshold opens an interval when none is
open; a frame at or above the threshold closes the open interval at the
current time and emits it when it is at least `min_silence_duration` long. -/
def silence_step (silence_threshold min_silence_duration : ℚ)
    (st : List (ℚ × ℚ) × Option ℚ) (frame : ℚ × ℚ) : List (ℚ × ℚ) × Option ℚ :=
  if frame.2 < silence_threshold then
    match st.2 with
    | none => (st.1, some frame.1)
    | some s => (st.1, some s)
  else
    match st.2 with
    | none => (st.1, none)
    | some s =>
        if min_silence_duration ≤ frame.1 - s then (st.1 ++ [(s, frame.1)], none)
        else (st.1, none)

/-- Embeds `analyze_silences` (analysis_utils.py, lines 64-95) applied to an
intensity contour, a list of `(time, dB)` frames.  After the scan, an interval
still open is closed at the last timestamp (`times[-1]`) and emitted when long
enough. -/
def analyze_silences (frames : List (ℚ × ℚ))
    (silence_threshold min_silence_duration : ℚ) : List (ℚ × ℚ) :=
  let r := frames.foldl (silence_step silence_threshold min_silence_duration) ([], none)
  match r.2, frames.getLast? with
  | some s, some lastf =>
      if min_silence_duration ≤ lastf.1 - s then r.1 ++ [(s, lastf.1)] else r.1
  | _, _ => r.1

/-- Embeds `segment_audio` (analysis_utils.py, lines 118-130): start times are
`np.arange(0, duration, segment_length)` (that is,
`k * segment_length` for `k < ceil(duration / segment_length)`), and each end
time is clipped to the total duration.  A segment is its
`(start_time, end_time)` pair; the samples are a pure slice of the waveform
determined by those bounds. -/
def segment_audio (duration segment_length : ℚ) : List (ℚ × ℚ) :=
  (List.range (Int.toNat (Int.ceil (duration / segment_length)))).map fun k : ℕ =>
    ((k : ℚ) * segment_length,
      min ((k : ℚ) * segment_length + segment_length) duration)

/-- Embeds `analyze_segment` (analysis_utils.py, lines 133-153) at the level of
its data flow: when the praat script resource is missing the function returns
`None`; otherwise the external tool runs on the segment and its whitespace-split
output token list (numeric at the indices the caller reads) is returned. -/
def analyze_segment (praat_script : Option String) (tool_tokens : List ℚ) :
    Option (List ℚ) :=
  match praat_script with
  | none => none
  | some _ => some tool_tokens

/-- Embeds `average_score` (analysis_utils.py, lines 155-177): missing script
resource gives `None`; otherwise every per-segment token list with more than
`max(14, score_index)` tokens contributes its `score_index`-th token, and the
result is `None` when no segment contributed, else the arithmetic mean
(`np.mean`). -/
def average_score (praat_script : Option String) (measurements : List (List ℚ))
    (score_index : Nat) : Option ℚ :=
  match praat_script with
  | none => none
  | some s =>
    let scores := measurements.foldl (fun scores m =>
      match analyze_segment (some s) m with
      | some z2 =>
          if max 14 score_index < z2.length then scores ++ [z2.getD score_index 0]
          else scores
      | none => scores) []
    if scores = [] then none
    else some (scores.sum / (scores.length : ℚ))

/-- File-effect view of `analyze_segment` (analysis_utils.py, lines 133-153):
the second component is the list of live temporary files.  On the non-missing
path the function creates a temporary script copy and a temporary `.wav`,
runs the tool, then removes both (`os.remove`, lines 148 and 150). -/
def analyze_segment_files (praat_script : Option String) (tool_tokens : List ℚ)
    (fs : List String) : Option (List ℚ) × List String :=
  match praat_script with
  | none => (none, fs)
  | some _ =>
    let fs1 := "temp_script" :: fs
    let fs2 := "segment_wav" :: fs1
    let fs3 := fs2.erase "segment_wav"
    let fs4 := fs3.erase "temp_script"
    (some tool_tokens, fs4)

/-- File-effect view of `average_score` (analysis_utils.py, lines 155-177):
`sourcerun`, the temporary copy of the script (line 163), is removed by
`os.remove(sourcerun)` (line 176) only on the path that reaches it; the early
`return None` when no segment produced a score (lines 173-174) happens first,
leaving the file live. -/
def average_score_files (praat_script : Option String)
    (measurements : List (List ℚ)) (score_index : Nat) (fs : List String) :
    Option ℚ × List String :=
  match praat_script with
  | none => (none, fs)
  | some s =>
    let fs1 := "sourcerun" :: fs
    let r := measurements.foldl (fun (st : List ℚ × List String) m =>
      match analyze_segment_files (some s) m st.2 with
      | (some z2, fsn) =>
          if max 14 score_index < z2.length then (st.1 ++ [z2.getD score_index 0], fsn)
          else (st.1, fsn)
      | (none, fsn) => (st.1, fsn)) ([], fs1)
    if r.1 = [] then (none, r.2)
    else (some (r.1.sum / (r.1.length : ℚ)), r.2.erase "sourcerun")

/-- Arithmetic mean of a list of rationals (`np.mean`). -/
def list_mean (xs : List ℚ) : ℚ := xs.sum / (xs.length : ℚ)

/-- Population variance (`np.std(xs) ** 2`, `ddof = 0`): the mean squared
deviation from the mean. -/
def pop_variance (xs : List ℚ) : ℚ :=
  ((xs.map (fun x => (x - list_mean xs) ^ 2)).sum) / (xs.length : ℚ)

/-- The frequency filter of `analyze_pitch` (analysis_utils.py, line 23):
`(pitch_values > 0) & (pitch_values >= 75) & (pitch_values <= 400)`. -/
def pitch_filter (pitch_values : List ℚ) : List ℚ :=
  pitch_values.filter (fun v => decide (0 < v ∧ 75 ≤ v ∧ v ≤ 400))

/-- Embeds `analyze_pitch` (analysis_utils.py, lines 12-33) from the pitch
contour onward, carrying the variance: the source returns
`np.std(filtered)`, the square root of this value, and `None` when the
filtered contour is empty.  The square root (the only irrational step) is
applied in the theorems via `Real.sqrt`, keeping this definition computable. -/
def analyze_pitch_var (pitch_values : List ℚ) : Option ℚ :=
  if pitch_filter pitch_values = [] then none
  else some (pop_variance (pitch_filter pitch_values))

/-- Embeds `classify_speaker` (analysis_utils.py, lines 37-43), generic in the
ordered number type so that it can be read both at `ℚ` (witness evaluation)
and at `ℝ` (the standard deviation): `None` brands "Unknown", a value in
`[10, 60]` "Balanced", anything else "Unbalanced". -/
def classify_speaker {α : Type} [LinearOrder α] [OfNat α 10] [OfNat α 60]
    (std_dev : Option α) : String :=
  match std_dev with
  | none => "Unknown"
  | some v => if 10 ≤ v ∧ v ≤ 60 then "Balanced" else "Unbalanced"

/-- The shape `scipy.io.wavfile.read` hands to `analyze_pitch`: either a
one-dimensional sample array or a frame-by-channel matrix. -/
inductive AudioChannels where
  | mono (samples : List ℚ)
  | multi (rows : List (List ℚ))
deriving DecidableEq

/-- The channel normalization of `analyze_pitch` (analysis_utils.py,
lines 14-16): a multi-channel signal is reduced to its column 0
(`sound_values[:, 0]`). -/
def load_samples : AudioChannels → List ℚ
  | .mono samples => samples
  | .multi rows => rows.map (fun r => r.headD 0)

/-- The pitch pipeline of `analyze_pitch` (analysis_utils.py, lines 14-29) with
the external pitch tracker (`parselmouth` `to_pitch`) abstracted as a function
of the sample rate and the downmixed samples. -/
def analyze_pitch_multi (track : Nat → List ℚ → List ℚ) (sample_rate : Nat)
    (audio : AudioChannels) : Option ℚ :=
  analyze_pitch_var (track sample_rate (load_samples audio))

/-- Invariant of the silence-scan loop: every emitted interval is at least
`min_silence_duration` long, emitted intervals are chronological and
non-overlapping, all of them end at or before time `T`, and an open interval
started at or before `T`, after every emitted interval. -/
def SilInv (min_silence_duration T : ℚ) (acc : List (ℚ × ℚ)) (st : Option ℚ) : Prop :=
  (∀ p ∈ acc, min_silence_duration ≤ p.2 - p.1) ∧
  List.Chain' (fun a b : ℚ × ℚ => a.2 ≤ b.1) acc ∧
  (∀ p ∈ acc, p.2 ≤ T) ∧
  (∀ s : ℚ, st = some s → s ≤ T ∧ ∀ p ∈ acc, p.2 ≤ s)

/-- Folding `max` over a list never goes below the initial value. -/
theorem foldl_max_init_le (xs : List ℚ) (x : ℚ) : x ≤ xs.foldl max x := by
  induction xs generalizing x with
  | nil => exact le_refl x
  | cons y ys ih => exact le_trans (le_max_left x y) (ih (max x y))

/-- Every member of a list bounds `foldl max` from below. -/
theorem le_foldl_max_of_mem (xs : List ℚ) (x a : ℚ) (ha : a ∈ xs) :
    a ≤ xs.foldl max x := by
  induction xs generalizing x with
  | nil => cases ha
  | cons y ys ih =>
    rcases List.mem_cons.mp ha with h | h
    · subst h
      exact le_trans (le_max_right x a) (foldl_max_init_le ys (max x a))
    · exact ih (max x y) h

/-- Every member of a nonempty list is at most its Python `max`. -/
theorem le_py_max_default (l : List ℚ) (d a : ℚ) (ha : a ∈ l) :
    a ≤ py_max_default l d := by
  cases l with
  | nil => cases ha
  | cons x xs =>
    rcases List.mem_cons.mp ha with h | h
    · subst h; exact foldl_max_init_le xs a
    · exact le_foldl_max_of_mem xs x a h

/-- C1: the aggregation returns `100 * positive / available` and `0` when
`available = 0`; on the spec example (pitch "Balanced", volume ideal, silence
"normal", pronunciation average `0.8`, articulation average `4`) the positive
count is `4.8` and the overall score is `96`. -/
theorem claim_C1 :
    (∀ positive_count available_count : ℚ,
        calculate_score positive_count available_count =
          if available_count = 0 then 0 else 100 * positive_count / available_count) ∧
    positive_criteria_count "Balanced" "Volume is ideal" "normal"
        (some (4 / 5)) (some 4) = some (24 / 5) ∧
    calculate_score (24 / 5) 5 = 96 := by
  refine ⟨?_, by norm_num [positive_criteria_count], by norm_num [calculate_score]⟩
  intro p a
  unfold calculate_score
  split_ifs with h
  · rfl
  · ring

/-- C2: the claim fails on the code.  When the pronunciation average is the
`None` sentinel, `pronunciation_score * 1` raises `TypeError`
(`positive_criteria_count` is `none`), the enclosing handler catches it, and
every criterion — including the successfully computed pitch, volume and
silence labels — falls back to its default error value. -/
theorem claim_C2_pron_missing_degrades_all :
    positive_criteria_count "Balanced" "Volume is ideal" "normal" none (some 4) = none ∧
    perform_analysis "Balanced" "Volume is ideal" "normal" none (some 4) = default_results ∧
    (perform_analysis "Balanced" "Volume is ideal" "normal" none (some 4)).pitch
      = "Error: Analysis failed" ∧
    (perform_analysis "Balanced" "Volume is ideal" "normal" none (some 4)).silence
      = "Error: Analysis failed" := by
  exact ⟨rfl, rfl, rfl, rfl⟩

/-- C4: any silence interval of duration at least 10 forces the verdict
"silence too long" (first, highest-severity check); concretely, a list holding
an interval of duration 12 with total silence 20 classifies as
"silence too long", and the empty list as "normal". -/
theorem claim_C4 (silences : List (ℚ × ℚ))
    (h : ∃ p ∈ silences, (10 : ℚ) ≤ p.2 - p.1) :
    classify_silences silences 15 15 10 = "silence too long" ∧
    classify_silences [((0 : ℚ), (12 : ℚ)), (20, 28)] 15 15 10 = "silence too long" ∧
    classify_silences ([] : List (ℚ × ℚ)) 15 15 10 = "normal" := by
  refine ⟨?_, ?_, by simp [classify_silences]⟩
  case refine_2 =>
    unfold classify_silences
    rw [if_neg (List.cons_ne_nil _ _)]
    dsimp only
    rw [if_pos (by norm_num [py_max_default, max_def, List.foldl_cons, List.foldl_nil])]
  obtain ⟨p, hp, hd⟩ := h
  cases silences with
  | nil => cases hp
  | cons q qs =>
    unfold classify_silences
    rw [if_neg (List.cons_ne_nil q qs)]
    dsimp only
    rw [if_pos]
    exact le_trans hd
      (le_py_max_default _ 0 _ (List.mem_map_of_mem (fun p => p.2 - p.1) hp))

/-- Witness for C4 at a concrete silence list. -/
theorem claim_C4_witness :
    classify_silences [((0 : ℚ), (12 : ℚ)), (20, 28)] 15 15 10 = "silence too long" ∧
    classify_silences [((0 : ℚ), (12 : ℚ)), (20, 28)] 15 15 10 = "silence too long" ∧
    classify_silences ([] : List (ℚ × ℚ)) 15 15 10 = "normal" :=
  claim_C4 [((0 : ℚ), (12 : ℚ)), (20, 28)] ⟨((0 : ℚ), (12 : ℚ)), by simp, by norm_num⟩

/-- C6: a per-segment token list with at most `max(14, score_index)` tokens
contributes no sample (the averaging is unchanged and does not crash); with
the script resource missing the whole operation returns the `None` sentinel;
a token list of length 10 at pronunciation index 14 is excluded, while one of
length 15 contributes its index-14 token. -/
theorem claim_C6 (s : String) (measurements : List (List ℚ)) (score_index : Nat)
    (m : List ℚ) (hm : m.length ≤ max 14 score_index) :
    average_score (some s) (m :: measurements) score_index
      = average_score (some s) measurements score_index ∧
    average_score none measurements score_index = none ∧
    average_score (some s) [[1, 2, 3, 4, 5, 6, 7, 8, 9, 10]] 14 = none ∧
    average_score (some s) [[0, 0, 0, 0, 0, 0, 0, 0, 0, 0, 0, 0, 0, 0, (7 : ℚ)]] 14
      = some 7 := by
  refine ⟨?_, rfl, rfl, ?_⟩
  · simp only [average_score, analyze_segment, List.foldl_cons, if_neg (not_lt.mpr hm)]
  · norm_num [average_score, analyze_segment, List.foldl_cons, List.foldl_nil, List.getD]

/-- Witness for C6 at a concrete short measurement. -/
theorem claim_C6_witness :
    average_score (some "p") ([1, 2, 3] :: []) 14 = average_score (some "p") [] 14 ∧
    average_score none ([] : List (List ℚ)) 14 = none ∧
    average_score (some "p") [[1, 2, 3, 4, 5, 6, 7, 8, 9, 10]] 14 = none ∧
    average_score (some "p") [[0, 0, 0, 0, 0, 0, 0, 0, 0, 0, 0, 0, 0, 0, (7 : ℚ)]] 14
      = some 7 :=
  claim_C6 "p" [] 14 [1, 2, 3] (by decide)

/-- C9: the claim fails on the code.  On the path where no segment yields a
usable score, `average_score` returns through the early `return None` before
reaching `os.remove(sourcerun)`, so the temporary script copy survives the
call; on the successful path (and inside each `analyze_segment` call) every
temporary artifact is removed. -/
theorem claim_C9_temp_script_leak :
    average_score_files (some "script") [[1, 2, 3, 4, 5, 6, 7, 8, 9, 10]] 14 []
      = (none, ["sourcerun"]) ∧
    average_score_files (some "script")
        [[0, 0, 0, 0, 0, 0, 0, 0, 0, 0, 0, 0, 0, 0, (7 : ℚ)]] 14 [] = (some 7, []) ∧
    analyze_segment_files (some "script") [1, 2, 3] [] = (some [1, 2, 3], []) := by
  refine ⟨rfl, ?_, rfl⟩
  norm_num [average_score_files, analyze_segment_files, List.foldl_cons, List.foldl_nil,
    List.getD, List.erase_cons]

/-- C10: the pitch pipeline reads only channel 0 of a multi-channel input, so
two inputs with the same sample rate and identical first channels produce the
same result whatever the other channels hold. -/
theorem claim_C10 (track : Nat → List ℚ → List ℚ) (sample_rate : Nat)
    (d1 d2 : List (List ℚ))
    (h : d1.map (fun r => r.headD 0) = d2.map (fun r => r.headD 0)) :
    analyze_pitch_multi track sample_rate (.multi d1)
      = analyze_pitch_multi track sample_rate (.multi d2) := by
  simp only [analyze_pitch_multi, load_samples]
  rw [h]

/-- Witness for C10: two stereo signals agreeing on channel 0 only. -/
theorem claim_C10_witness :
    analyze_pitch_multi (fun _ s => s) 44100 (.multi [[(1 : ℚ), 2]])
      = analyze_pitch_multi (fun _ s => s) 44100 (.multi [[(1 : ℚ), 3]]) :=
  claim_C10 (fun _ s => s) 44100 [[(1 : ℚ), 2]] [[(1 : ℚ), 3]] (by decide)

/-- A sum over `List.range` is the corresponding `Finset.range` sum. -/
theorem list_range_map_sum (n : ℕ) (f : ℕ → ℚ) :
    ((List.range n).map f).sum = ∑ i ∈ Finset.range n, f i := by
  induction n with
  | zero => simp
  | succ m ih =>
    rw [List.range_succ, List.map_append, List.sum_append, Finset.sum_range_succ, ih]
    simp

/-- Start times of `segment_audio` stay strictly below the total duration. -/
theorem segment_start_lt (d L : ℚ) (hd : 0 < d) (hL : 0 < L) (k : ℕ)
    (hk : k < Int.toNat (Int.ceil (d / L))) : (k : ℚ) * L < d := by
  have hceil_pos : 0 < Int.ceil (d / L) := Int.ceil_pos.mpr (div_pos hd hL)
  have hn_cast : ((Int.toNat (Int.ceil (d / L)) : ℤ) : ℚ)
      = ((Int.ceil (d / L) : ℤ) : ℚ) := by
    exact_mod_cast congrArg (fun z : ℤ => (z : ℚ)) (Int.toNat_of_nonneg hceil_pos.le)
  have h1 : (k : ℚ) ≤ (Int.toNat (Int.ceil (d / L)) : ℚ) - 1 := by
    have hk1 : (k : ℚ) + 1 ≤ (Int.toNat (Int.ceil (d / L)) : ℚ) := by
      exact_mod_cast Nat.succ_le_of_lt hk
    linarith
  have h2 : ((Int.ceil (d / L) : ℤ) : ℚ) - 1 < d / L := by
    have := Int.ceil_lt_add_one (d / L)
    linarith
  have h3 : (k : ℚ) < d / L := by
    have hn_cast2 : (Int.toNat (Int.ceil (d / L)) : ℚ)
        = ((Int.ceil (d / L) : ℤ) : ℚ) := by exact_mod_cast hn_cast
    rw [hn_cast2] at h1
    linarith
  exact (lt_div_iff₀ hL).mp h3

/-- The total duration is at most `n * L` for `n` the segment count. -/
theorem segment_count_mul_le (d L : ℚ) (hd : 0 < d) (hL : 0 < L) :
    d ≤ (Int.toNat (Int.ceil (d / L)) : ℚ) * L := by
  have hceil_pos : 0 < Int.ceil (d / L) := Int.ceil_pos.mpr (div_pos hd hL)
  have hn_cast : (Int.toNat (Int.ceil (d / L)) : ℚ)
      = ((Int.ceil (d / L) : ℤ) : ℚ) := by
    exact_mod_cast congrArg (fun z : ℤ => (z : ℚ)) (Int.toNat_of_nonneg hceil_pos.le)
  have h1 : d / L ≤ ((Int.ceil (d / L) : ℤ) : ℚ) := Int.le_ceil _
  rw [← hn_cast] at h1
  exact (div_le_iff₀ hL).mp h1

/-- C7: for a waveform of positive duration and a positive segment length the
segmenter emits contiguous windows (each end time is the next start time),
whose durations sum exactly to the duration, none longer than
`segment_length` and all nonempty, starting at time 0 and ending at the
duration; the function is deterministic, and a zero-duration waveform yields
the empty segment list. -/
theorem claim_C7 (d L : ℚ) (hd : 0 < d) (hL : 0 < L) :
    (List.Chain' (fun a b : ℚ × ℚ => a.2 = b.1) (segment_audio d L) ∧
      ((segment_audio d L).map (fun p => p.2 - p.1)).sum = d ∧
      (∀ p ∈ segment_audio d L, p.2 - p.1 ≤ L ∧ p.1 < p.2) ∧
      (segment_audio d L).head? = some (0, min L d) ∧
      ((segment_audio d L).getLast?).map Prod.snd = some d ∧
      segment_audio d L = segment_audio d L) ∧
    (∀ L2 : ℚ, segment_audio 0 L2 = []) := by
  have hn_pos : 0 < Int.toNat (Int.ceil (d / L)) := by
    have hceil_pos : 0 < Int.ceil (d / L) := Int.ceil_pos.mpr (div_pos hd hL)
    omega
  obtain ⟨m, hm⟩ : ∃ m, Int.toNat (Int.ceil (d / L)) = m + 1 :=
    ⟨Int.toNat (Int.ceil (d / L)) - 1, by omega⟩
  have hmin_lt : ∀ k : ℕ, k + 1 < Int.toNat (Int.ceil (d / L)) →
      min ((k : ℚ) * L + L) d = (k : ℚ) * L + L := by
    intro k hk
    apply min_eq_left
    have := segment_start_lt d L hd hL (k + 1) hk
    push_cast at this
    linarith
  refine ⟨⟨?_, ?_, ?_, ?_, ?_, rfl⟩, ?_⟩
  · -- contiguity
    unfold segment_audio
    rw [List.chain'_map, hm, List.chain'_range_succ]
    intro i hi
    show min ((i : ℚ) * L + L) d = ((i + 1 : ℕ) : ℚ) * L
    rw [hmin_lt i (by omega)]
    push_cast
    ring
  · -- durations sum to the total duration
    unfold segment_audio
    rw [List.map_map, list_range_map_sum]
    have hstep : ∀ i ∈ Finset.range (Int.toNat (Int.ceil (d / L))),
        ((fun p : ℚ × ℚ => p.2 - p.1) ∘ fun k : ℕ =>
          ((k : ℚ) * L, min ((k : ℚ) * L + L) d)) i
        = min (((i + 1 : ℕ) : ℚ) * L) d - min ((i : ℚ) * L) d := by
      intro i hi
      rw [Finset.mem_range] at hi
      have h1 : min ((i : ℚ) * L) d = (i : ℚ) * L :=
        min_eq_left (le_of_lt (segment_start_lt d L hd hL i hi))
      have h2 : ((i : ℚ) * L + L) = ((i + 1 : ℕ) : ℚ) * L := by push_cast; ring
      simp only [Function.comp_apply]
      rw [h1, h2]
    rw [Finset.sum_congr rfl hstep]
    have htel := Finset.sum_range_sub (fun k : ℕ => min ((k : ℚ) * L) d)
      (Int.toNat (Int.ceil (d / L)))
    simp only at htel
    rw [htel]
    have hlast : min ((Int.toNat (Int.ceil (d / L)) : ℚ) * L) d = d :=
      min_eq_right (segment_count_mul_le d L hd hL)
    have hfirst : min (((0 : ℕ) : ℚ) * L) d = 0 := by
      simp only [Nat.cast_zero, zero_mul]
      exact min_eq_left hd.le
    rw [hlast, hfirst, sub_zero]
  · -- each segment is at most `L` long and nonempty
    intro p hp
    unfold segment_audio at hp
    obtain ⟨k, hk, rfl⟩ := List.mem_map.mp hp
    rw [List.mem_range] at hk
    constructor
    · show min ((k : ℚ) * L + L) d - (k : ℚ) * L ≤ L
      have := min_le_left ((k : ℚ) * L + L) d
      linarith
    · show (k : ℚ) * L < min ((k : ℚ) * L + L) d
      exact lt_min (by linarith) (segment_start_lt d L hd hL k hk)
  · -- the first segment starts at time 0
    unfold segment_audio
    rw [hm, List.range_succ_eq_map, List.map_cons, List.head?_cons]
    norm_num
  · -- the last segment ends at the duration
    unfold segment_audio
    rw [hm, List.range_succ, List.map_append, List.map_cons, List.map_nil,
      List.getLast?_concat]
    have hend : min ((m : ℚ) * L + L) d = d := by
      apply min_eq_right
      have := segment_count_mul_le d L hd hL
      rw [hm] at this
      push_cast at this
      linarith
    simp only [Option.map_some']
    rw [hend]
  · -- zero duration: empty segment list
    intro L2
    simp [segment_audio]

/-- Witness for C7 at a 20 s waveform with the default 15 s window. -/
theorem claim_C7_witness :
    ((segment_audio 20 15).map (fun p => p.2 - p.1)).sum = 20 ∧
    segment_audio 0 15 = [] := by
  have h := claim_C7 20 15 (by norm_num) (by norm_num)
  exact ⟨h.1.2.1, h.2 15⟩

/-- One `silence_step` preserves the scan invariant, advancing the time bound
to the current frame time. -/
theorem silInv_step (thr min_dur T : ℚ) (f : ℚ × ℚ) (acc : List (ℚ × ℚ))
    (st : Option ℚ) (hT : T < f.1) (hinv : SilInv min_dur T acc st) :
    SilInv min_dur f.1 (silence_step thr min_dur (acc, st) f).1
      (silence_step thr min_dur (acc, st) f).2 := by
  obtain ⟨h1, h2, h3, h4⟩ := hinv
  cases st with
  | none =>
    by_cases hv : f.2 < thr
    · simp only [silence_step, if_pos hv]
      refine ⟨h1, h2, fun p hp => (h3 p hp).trans hT.le, ?_⟩
      intro s hs
      rw [Option.some.injEq] at hs
      subst hs
      exact ⟨le_refl _, fun p hp => (h3 p hp).trans hT.le⟩
    · simp only [silence_step, if_neg hv]
      exact ⟨h1, h2, fun p hp => (h3 p hp).trans hT.le, fun s hs => by cases hs⟩
  | some s0 =>
    have hs0 := h4 s0 rfl
    by_cases hv : f.2 < thr
    · simp only [silence_step, if_pos hv]
      refine ⟨h1, h2, fun p hp => (h3 p hp).trans hT.le, ?_⟩
      intro s hs
      rw [Option.some.injEq] at hs
      subst hs
      exact ⟨hs0.1.trans hT.le, hs0.2⟩
    · simp only [silence_step, if_neg hv]
      by_cases hdur : min_dur ≤ f.1 - s0
      · rw [if_pos hdur]
        refine ⟨?_, ?_, ?_, fun s hs => by cases hs⟩
        · intro p hp
          rcases List.mem_append.mp hp with hp | hp
          · exact h1 p hp
          · rw [List.mem_singleton] at hp
            subst hp
            simpa using hdur
        · rw [List.chain'_append]
          refine ⟨h2, List.chain'_singleton _, ?_⟩
          intro x hx y hy
          obtain ⟨hne, rfl⟩ := List.mem_getLast?_eq_getLast hx
          have hy' : y = (s0, f.1) := by
            have := hy
            simp only [List.head?_cons, Option.mem_def, Option.some.injEq] at this
            exact this.symm
          subst hy'
          exact hs0.2 _ (List.getLast_mem hne)
        · intro p hp
          rcases List.mem_append.mp hp with hp | hp
          · exact (h3 p hp).trans hT.le
          · rw [List.mem_singleton] at hp
            subst hp
            exact le_refl _
      · rw [if_neg hdur]
        exact ⟨h1, h2, fun p hp => (h3 p hp).trans hT.le, fun s hs => by cases hs⟩

/-- Scanning a chronological contour from a valid state keeps the invariant,
with the time bound at the last frame time. -/
theorem silInv_fold (thr min_dur : ℚ) (frames : List (ℚ × ℚ)) :
    ∀ (T : ℚ) (acc : List (ℚ × ℚ)) (st : Option ℚ),
      List.Pairwise (fun a b : ℚ × ℚ => a.1 < b.1) frames →
      (∀ f ∈ frames, T < f.1) →
      SilInv min_dur T acc st →
      SilInv min_dur ((frames.getLast?.map Prod.fst).getD T)
        (frames.foldl (silence_step thr min_dur) (acc, st)).1
        (frames.foldl (silence_step thr min_dur) (acc, st)).2 := by
  induction frames with
  | nil => intro T acc st _ _ hinv; simpa using hinv
  | cons f fs ih =>
    intro T acc st hpw hlow hinv
    rw [List.pairwise_cons] at hpw
    have hstep := silInv_step thr min_dur T f acc st
      (hlow f (List.mem_cons_self f fs)) hinv
    have hgoal := ih f.1 (silence_step thr min_dur (acc, st) f).1
      (silence_step thr min_dur (acc, st) f).2 hpw.2
      (fun g hg => hpw.1 g hg) hstep
    rw [List.foldl_cons]
    cases fs with
    | nil => simpa using hgoal
    | cons g gs =>
      rw [List.getLast?_cons_cons]
      simpa using hgoal

/-- C5: on a chronologically ordered intensity contour and with a positive
minimum duration, the silence detector emits a chronological, non-overlapping
sequence of intervals (each closes before the next opens), every emitted
interval has `end > start` and duration at least `min_silence_duration`; at
the default 0.5 s minimum, a silence of exactly 0.5 s is emitted and one of
0.49 s is dropped. -/
theorem claim_C5 (frames : List (ℚ × ℚ)) (thr min_dur : ℚ)
    (hmono : List.Chain' (fun a b : ℚ × ℚ => a.1 < b.1) frames)
    (hmd : 0 < min_dur) :
    (List.Chain' (fun a b : ℚ × ℚ => a.2 ≤ b.1) (analyze_silences frames thr min_dur) ∧
      ∀ p ∈ analyze_silences frames thr min_dur, p.1 < p.2 ∧ min_dur ≤ p.2 - p.1) ∧
    analyze_silences [((0 : ℚ), (10 : ℚ)), (1 / 2, 50)] 40 (1 / 2) = [(0, 1 / 2)] ∧
    analyze_silences [((0 : ℚ), (10 : ℚ)), (49 / 100, 50)] 40 (1 / 2) = [] := by
  refine ⟨?_, ?_, ?_⟩
  · haveI : IsTrans (ℚ × ℚ) (fun a b : ℚ × ℚ => a.1 < b.1) :=
      ⟨fun a b c hab hbc => lt_trans hab hbc⟩
    have hpw : List.Pairwise (fun a b : ℚ × ℚ => a.1 < b.1) frames :=
      List.chain'_iff_pairwise.mp hmono
    cases frames with
    | nil =>
      exact ⟨List.chain'_nil, fun p hp => absurd hp (List.not_mem_nil p)⟩
    | cons f fs =>
      have hlow : ∀ g ∈ f :: fs, f.1 - 1 < g.1 := by
        intro g hg
        rcases List.mem_cons.mp hg with rfl | hg
        · linarith
        · have := (List.pairwise_cons.mp hpw).1 g hg
          linarith
      have hinv0 : SilInv min_dur (f.1 - 1) [] none :=
        ⟨fun p hp => absurd hp (List.not_mem_nil p), List.chain'_nil,
         fun p hp => absurd hp (List.not_mem_nil p), fun s hs => by cases hs⟩
      have hfold := silInv_fold thr min_dur (f :: fs) (f.1 - 1) [] none hpw hlow hinv0
      cases hlast : (f :: fs).getLast? with
      | none =>
        exact absurd (List.getLast?_eq_none_iff.mp hlast) (List.cons_ne_nil f fs)
      | some lastf =>
        rw [hlast] at hfold
        simp only [Option.map_some', Option.getD_some] at hfold
        obtain ⟨h1, h2, h3, h4⟩ := hfold
        cases hr2 : ((f :: fs).foldl (silence_step thr min_dur) ([], none)).2 with
        | none =>
          have hA : analyze_silences (f :: fs) thr min_dur
              = ((f :: fs).foldl (silence_step thr min_dur) ([], none)).1 := by
            simp only [analyze_silences]
            rw [hr2, hlast]
          rw [hA]
          refine ⟨h2, ?_⟩
          intro p hp
          have hd := h1 p hp
          exact ⟨by linarith, hd⟩
        | some s =>
          have hs4 := h4 s hr2
          by_cases hdur : min_dur ≤ lastf.1 - s
          · have hA : analyze_silences (f :: fs) thr min_dur
                = ((f :: fs).foldl (silence_step thr min_dur) ([], none)).1
                  ++ [(s, lastf.1)] := by
              simp only [analyze_silences]
              rw [hr2, hlast]
              exact if_pos hdur
            rw [hA]
            constructor
            · rw [List.chain'_append]
              refine ⟨h2, List.chain'_singleton _, ?_⟩
              intro x hx y hy
              obtain ⟨hne, rfl⟩ := List.mem_getLast?_eq_getLast hx
              have hy' : y = (s, lastf.1) := by
                have hy2 := hy
                simp only [List.head?_cons, Option.mem_def, Option.some.injEq] at hy2
                exact hy2.symm
              subst hy'
              exact hs4.2 _ (List.getLast_mem hne)
            · intro p hp
              rcases List.mem_append.mp hp with hp | hp
              · have hd := h1 p hp
                exact ⟨by linarith, hd⟩
              · rw [List.mem_singleton] at hp
                subst hp
                refine ⟨?_, ?_⟩
                · show s < lastf.1
                  linarith
                · show min_dur ≤ lastf.1 - s
                  exact hdur
          · have hA : analyze_silences (f :: fs) thr min_dur
                = ((f :: fs).foldl (silence_step thr min_dur) ([], none)).1 := by
              simp only [analyze_silences]
              rw [hr2, hlast]
              exact if_neg hdur
            rw [hA]
            refine ⟨h2, ?_⟩
            intro p hp
            have hd := h1 p hp
            exact ⟨by linarith, hd⟩
  · norm_num [analyze_silences, silence_step, List.foldl_cons, List.foldl_nil,
      List.getLast?_cons_cons, List.getLast?_singleton]
  · norm_num [analyze_silences, silence_step, List.foldl_cons, List.foldl_nil,
      List.getLast?_cons_cons, List.getLast?_singleton]

/-- Witness for C5 on a concrete two-frame contour. -/
theorem claim_C5_witness :
    List.Chain' (fun a b : ℚ × ℚ => a.2 ≤ b.1)
      (analyze_silences [((0 : ℚ), (10 : ℚ)), (1 / 2, 50)] 40 (1 / 2)) :=
  (claim_C5 [((0 : ℚ), (10 : ℚ)), (1 / 2, 50)] 40 (1 / 2)
    (by norm_num [List.chain'_cons, List.chain'_singleton]) (by norm_num)).1.1

/-- The population variance of a list of rationals is nonnegative. -/
theorem pop_variance_nonneg (xs : List ℚ) : 0 ≤ pop_variance xs := by
  unfold pop_variance
  apply div_nonneg
  · apply List.sum_nonneg
    intro x hx
    obtain ⟨y, hy, rfl⟩ := List.mem_map.mp hx
    positivity
  · exact Nat.cast_nonneg _

/-- The standard deviation lies in the band `[10, 60]` exactly when the
variance lies in `[100, 3600]`. -/
theorem sqrt_band_iff (q : ℚ) :
    ((10 : ℝ) ≤ Real.sqrt (q : ℝ) ∧ Real.sqrt (q : ℝ) ≤ 60) ↔
      (100 ≤ q ∧ q ≤ 3600) := by
  constructor
  · rintro ⟨ha, hb⟩
    constructor
    · have h2 := (Real.le_sqrt' (by norm_num : (0 : ℝ) < 10)).mp ha
      norm_num at h2
      exact_mod_cast h2
    · have h2 := (Real.sqrt_le_left (by norm_num : (0 : ℝ) ≤ 60)).mp hb
      norm_num at h2
      exact_mod_cast h2
  · rintro ⟨ha, hb⟩
    constructor
    · apply (Real.le_sqrt' (by norm_num : (0 : ℝ) < 10)).mpr
      have h2 : (100 : ℝ) ≤ (q : ℝ) := by exact_mod_cast ha
      norm_num
      linarith
    · apply (Real.sqrt_le_left (by norm_num : (0 : ℝ) ≤ 60)).mpr
      have h2 : ((q : ℝ)) ≤ 3600 := by exact_mod_cast hb
      norm_num
      linarith

/-- C8: the pitch analyzer keeps only contour values that are positive and
inside `[75, 400]`; an empty filtered set yields the `None` sentinel and the
"Unknown" label (distinguishable from a zero dispersion, which brands
"Unbalanced"); a nonempty one yields the population variance, whose square
root — the population standard deviation the source returns — classifies as
"Balanced" exactly when it lies in `[10, 60]` and as "Unbalanced"
otherwise. -/
theorem claim_C8 (pitch_values : List ℚ) :
    (pitch_filter pitch_values = [] →
      analyze_pitch_var pitch_values = none ∧
      classify_speaker ((analyze_pitch_var pitch_values).map
        (fun q : ℚ => Real.sqrt (q : ℝ))) = "Unknown") ∧
    (∀ q : ℚ, analyze_pitch_var pitch_values = some q →
      q = pop_variance (pitch_filter pitch_values) ∧ 0 ≤ q ∧
      (classify_speaker (some (Real.sqrt (q : ℝ))) = "Balanced" ↔
        100 ≤ q ∧ q ≤ 3600) ∧
      (¬(100 ≤ q ∧ q ≤ 3600) →
        classify_speaker (some (Real.sqrt (q : ℝ))) = "Unbalanced")) ∧
    classify_speaker (some (0 : ℚ)) = "Unbalanced" ∧
    classify_speaker (none : Option ℚ) = "Unknown" := by
  refine ⟨?_, ?_, ?_, rfl⟩
  · intro hempty
    have h1 : analyze_pitch_var pitch_values = none := by
      unfold analyze_pitch_var
      rw [if_pos hempty]
    exact ⟨h1, by rw [h1]; rfl⟩
  · intro q hq
    have hne : ¬(pitch_filter pitch_values = []) := by
      intro hcon
      unfold analyze_pitch_var at hq
      rw [if_pos hcon] at hq
      cases hq
    have hqv : q = pop_variance (pitch_filter pitch_values) := by
      unfold analyze_pitch_var at hq
      rw [if_neg hne] at hq
      injection hq with h
      exact h.symm
    have h0 : (0 : ℚ) ≤ q := hqv ▸ pop_variance_nonneg _
    refine ⟨hqv, h0, ?_, ?_⟩
    · simp only [classify_speaker]
      by_cases hc : (10 : ℝ) ≤ Real.sqrt (q : ℝ) ∧ Real.sqrt (q : ℝ) ≤ 60
      · rw [if_pos hc]
        exact iff_of_true rfl ((sqrt_band_iff q).mp hc)
      · rw [if_neg hc]
        exact iff_of_false (by decide) (fun hb => hc ((sqrt_band_iff q).mpr hb))
    · intro hnb
      simp only [classify_speaker]
      rw [if_neg (fun hc => hnb ((sqrt_band_iff q).mp hc))]
  · simp only [classify_speaker]
    rw [if_neg (by norm_num)]

/-- Witness for C8 on a contour with no value in the voice band. -/
theorem claim_C8_witness :
    analyze_pitch_var [(3 : ℚ)] = none ∧
    classify_speaker ((analyze_pitch_var [(3 : ℚ)]).map
      (fun q : ℚ => Real.sqrt (q : ℝ))) = "Unknown" :=
  (claim_C8 [(3 : ℚ)]).1 (by norm_num [pitch_filter, List.filter_cons, List.filter_nil])
